import Mathlib

/-!
Verification of the uiua repository (CLI in src/main.rs, tutorial docs in
site/src/docs/tutorial.rs) against its natural-language specification.

The language engine (the uiua crate: value model, pervasive arithmetic,
formatter, dfn compiler, import system) is not among the repository source
files here; only its CLI caller and its tutorial documentation are. Where a
claim is decided by that missing engine code, the definitions below are
modelled from the specification text (and the tutorial prose that documents
the same behavior), as marked in each doc comment. Definitions for the CLI
(watch loop, run modes, working-file resolution, interrupt handler) are
translated directly from src/main.rs.
-/

namespace Uiua

/-! ## Dfn arity inference (spec section 4.4) -/

/-- Modelled from the spec: the dfn compiler is not under src. A dfn body is
scanned for references to single lowercase ASCII letter names; the reference
index of such a name is its letter index (a = 1 .. z = 26), and any other
name has index 0. -/
def refIndex (s : String) : Nat :=
  match s.data with
  | [c] => if 97 ≤ c.toNat ∧ c.toNat ≤ 122 then c.toNat - 97 + 1 else 0
  | _ => 0

/-- Modelled from the spec: the arity of a dfn is the index of the
highest-lettered single lowercase ASCII letter name referenced in its body
(a = 1), or 0 when no such letter is referenced. The body is represented by
the list of names it references. -/
def dfnArity (body : List String) : Nat :=
  (body.map refIndex).foldr max 0

theorem dfnArity_cons (s : String) (body : List String) :
    dfnArity (s :: body) = max (refIndex s) (dfnArity body) := rfl

theorem refIndex_le_dfnArity (body : List String) :
    ∀ s ∈ body, refIndex s ≤ dfnArity body := by
  induction body with
  | nil => intro s h; cases h
  | cons t rest ih =>
      intro s h
      rcases List.mem_cons.mp h with h | h
      · subst h; rw [dfnArity_cons]; exact le_max_left _ _
      · rw [dfnArity_cons]; exact le_trans (ih s h) (le_max_right _ _)

theorem dfnArity_attained (body : List String) :
    dfnArity body = 0 ∨ ∃ s ∈ body, refIndex s = dfnArity body := by
  induction body with
  | nil => exact Or.inl rfl
  | cons t rest ih =>
      rcases le_or_lt (refIndex t) (dfnArity rest) with h | h
      · rcases ih with h0 | ⟨s, hs, he⟩
        · rcases Nat.le_zero.mp (h0 ▸ h) with ht
          exact Or.inl (by simp [dfnArity_cons, h0, ht])
        · exact Or.inr ⟨s, List.mem_cons_of_mem _ hs, by simp [dfnArity_cons, max_eq_right h, he]⟩
      · exact Or.inr ⟨t, List.mem_cons_self _ _, by simp [dfnArity_cons, max_eq_left (le_of_lt h)]⟩

theorem dfnArity_perm {l l' : List String} (p : l.Perm l') :
    dfnArity l = dfnArity l' := by
  induction p with
  | nil => rfl
  | cons x _ ih => simp [dfnArity_cons, ih]
  | swap x y l => simp [dfnArity_cons, ← max_assoc, max_comm (refIndex y) (refIndex x)]
  | trans _ _ ih1 ih2 => exact ih1.trans ih2

theorem refIndex_a : refIndex "a" = 1 := by decide

theorem refIndex_z : refIndex "z" = 26 := by decide

theorem refIndex_le_26 (s : String) : refIndex s ≤ 26 := by
  unfold refIndex
  match s.data with
  | [c] =>
      by_cases h : 97 ≤ c.toNat ∧ c.toNat ≤ 122
      · simp only [if_pos h]
        omega
      · simp [if_neg h]
  | [] => exact Nat.zero_le _
  | _ :: _ :: _ => exact Nat.zero_le _

theorem dfnArity_only_a (body : List String)
    (hne : body ≠ []) (hall : ∀ s ∈ body, s = "a") : dfnArity body = 1 := by
  induction body with
  | nil => exact absurd rfl hne
  | cons t rest ih =>
      have ht : t = "a" := hall t (List.mem_cons_self _ _)
      rcases rest with _ | ⟨u, rest⟩
      · simp [dfnArity_cons, ht, refIndex_a, dfnArity]
      · have := ih (by simp) (fun s hs => hall s (List.mem_cons_of_mem _ hs))
        simp [dfnArity_cons, ht, refIndex_a, this]

theorem dfnArity_no_letters (body : List String)
    (hall : ∀ s ∈ body, refIndex s = 0) : dfnArity body = 0 := by
  induction body with
  | nil => rfl
  | cons t rest ih =>
      have := ih (fun s hs => hall s (List.mem_cons_of_mem _ hs))
      simp [dfnArity_cons, hall t (List.mem_cons_self _ _), this]

theorem dfnArity_z_mem (body : List String) (hz : "z" ∈ body) :
    dfnArity body = 26 := by
  have hle : dfnArity body ≤ 26 := by
    rcases dfnArity_attained body with h0 | ⟨s, _, he⟩
    · omega
    · exact he ▸ refIndex_le_26 s
  have hge : 26 ≤ dfnArity body := refIndex_z ▸ refIndex_le_dfnArity body "z" hz
  omega

/-- C4: the inferred dfn arity is the index of the highest single lowercase
ASCII letter name referenced in the body (a = 1, so a body referencing only
"a" has arity 1 and any body referencing "z" has arity 26), it is independent
of reference order, and a body referencing no such letters has arity 0. -/
theorem dfn_arity_spec (body : List String) (hne : body ≠ []) :
    (∀ s ∈ body, refIndex s ≤ dfnArity body) ∧
    (dfnArity body = 0 ∨ ∃ s ∈ body, refIndex s = dfnArity body) ∧
    (∀ l', body.Perm l' → dfnArity body = dfnArity l') ∧
    ((∀ s ∈ body, s = "a") → dfnArity body = 1) ∧
    ("z" ∈ body → dfnArity body = 26) ∧
    ((∀ s ∈ body, refIndex s = 0) → dfnArity body = 0) :=
  ⟨refIndex_le_dfnArity body, dfnArity_attained body,
   fun _ p => dfnArity_perm p, dfnArity_only_a body hne,
   dfnArity_z_mem body, dfnArity_no_letters body⟩

theorem dfn_arity_spec_witness :
    (["c", "a", "b"] : List String) ≠ [] ∧
    dfnArity ["c", "a", "b"] = dfnArity ["a", "b", "c"] ∧
    dfnArity ["c", "a", "b"] = 3 :=
  ⟨by decide,
   (dfn_arity_spec ["c", "a", "b"] (by decide)).2.2.1 ["a", "b", "c"] (by decide),
   by decide⟩

/-! ## Right-to-left line evaluation and operand order (spec sections 4.3, 8) -/

/-- Modelled from the spec: a primitive pervasive operator of the stack
machine (engine not under src). Numbers are modelled as integers; the claim
only concerns small integral values. -/
inductive MPrim
  | add
  | sub
  | mul
deriving DecidableEq

/-- Modelled from the spec: the scalar function of a binary primitive. The
first argument is the first value popped (the operand written to the left in
source, pushed last); subtract computes right-operand-minus-left as pushed. -/
def primFn : MPrim → Int → Int → Int
  | .add, a, b => a + b
  | .sub, a, b => b - a
  | .mul, a, b => a * b

/-- A token of one source line: a number literal or a binary primitive. -/
inductive MTok
  | num (n : Int)
  | prim (p : MPrim)

/-- Modelled from the spec: one evaluation step of the stack machine. A
literal pushes its value; a binary operator pops the top two values and
pushes the result; popping from an empty stack is a fatal error (none). -/
def evalTok : Option (List Int) → MTok → Option (List Int)
  | some st, .num n => some (n :: st)
  | some (a :: b :: rest), .prim p => some (primFn p a b :: rest)
  | _, _ => none

/-- Modelled from the spec: a line is evaluated strictly right to left, so
the leftmost token acts on the result of evaluating everything to its
right. -/
def evalLine : List MTok → Option (List Int) → Option (List Int)
  | [], st => st
  | t :: rest, st => evalTok (evalLine rest st) t

/-- C6: non-commutative pervasive operators apply backwards with respect to
push order: the line `- 2 5` evaluates to the single stack value 3 (5 minus
2), subtract computes right-operand-minus-left as pushed and is not
commutative, while add and multiply are commutative. -/
theorem noncommutative_backwards :
    evalLine [.prim .sub, .num 2, .num 5] (some []) = some [3] ∧
    (∀ a b : Int, primFn .add a b = primFn .add b a) ∧
    (∀ a b : Int, primFn .mul a b = primFn .mul b a) ∧
    (∀ a b : Int, primFn .sub a b = b - a) ∧
    primFn .sub 2 5 ≠ primFn .sub 5 2 := by
  refine ⟨rfl, fun a b => Int.add_comm a b, fun a b => Int.mul_comm a b,
    fun a b => rfl, by decide⟩

theorem noncommutative_backwards_witness :
    primFn .add 2 5 = primFn .add 5 2 ∧ primFn .sub 2 5 = 3 :=
  ⟨noncommutative_backwards.2.1 2 5, noncommutative_backwards.2.2.2.1 2 5⟩

/-! ## Character arithmetic (spec section 4.1; tutorial.rs lines 338-344) -/

/-- A scalar runtime value: a number (modelled as an integer) or a character
(modelled by its codepoint as an integer). -/
inductive UScalar
  | num (n : Int)
  | char (c : Int)
deriving DecidableEq

/-- The binary arithmetic primitives of the math table. -/
inductive ArithOp
  | add
  | sub
  | mul
  | div
  | mod
  | pow
deriving DecidableEq

/-- Modelled from the spec: the engine's scalar arithmetic dispatch is not
under src. Behavior follows the tutorial documentation in
site/src/docs/tutorial.rs lines 339-341: a number can be added to or
subtracted from a character giving a character, two characters can be
subtracted giving a number, and no other arithmetic works on characters.
The first operand is the first value popped, so subtract computes
second-minus-first (right-operand-minus-left as pushed); the numeric results
on characters follow the affine rules. -/
def scalarArith : ArithOp → UScalar → UScalar → Option UScalar
  | .add, .num a, .num b => some (.num (a + b))
  | .add, .num n, .char c => some (.char (c + n))
  | .add, .char c, .num n => some (.char (c + n))
  | .sub, .num a, .num b => some (.num (b - a))
  | .sub, .num n, .char c => some (.char (c - n))
  | .sub, .char a, .char b => some (.num (b - a))
  | .mul, .num a, .num b => some (.num (a * b))
  | .div, .num a, .num b => some (.num (b / a))
  | .mod, .num a, .num b => some (.num (b % a))
  | .pow, .num a, .num b => some (.num (b ^ a.toNat))
  | _, _, _ => none

/-- Whether a scalar is a character. -/
def UScalar.isChar : UScalar → Bool
  | .char _ => true
  | .num _ => false

/-- The two character-arithmetic combinations that the claim asserts are the
only succeeding ones, written from the claim's words: adding a number to a
character, and subtracting one character from another. -/
def claimC5Allowed : ArithOp → UScalar → UScalar → Bool
  | .add, .num _, .char _ => true
  | .add, .char _, .num _ => true
  | .sub, .char _, .char _ => true
  | _, _, _ => false

/-- The character-arithmetic combinations that actually succeed, per the
tutorial: additionally a number may be subtracted from a character. -/
def charArithAllowed : ArithOp → UScalar → UScalar → Bool
  | .add, .num _, .char _ => true
  | .add, .char _, .num _ => true
  | .sub, .num _, .char _ => true
  | .sub, .char _, .char _ => true
  | _, _, _ => false

/-- C5 counterexample: subtracting the number 1 from the character with
codepoint 98 succeeds (yielding codepoint 97), yet this combination is
neither of the two the claim permits, so the claim as stated is false. -/
theorem char_arith_claim_counterexample :
    scalarArith .sub (.num 1) (.char 98) = some (.char 97) ∧
    claimC5Allowed .sub (.num 1) (.char 98) = false ∧
    (UScalar.num 1).isChar || (UScalar.char 98).isChar = true := by
  decide

/-- C5 (amended): character arithmetic obeys exactly the affine rules of the
tutorial: adding a number to a character (either operand order) yields a
character, subtracting a number from a character yields a character,
subtracting one character from another yields a number, and every other
arithmetic operation involving a character fails with a TypeError. -/
theorem char_arith_affine (op : ArithOp) (a b : UScalar)
    (h : a.isChar || b.isChar = true) :
    ((scalarArith op a b).isSome = charArithAllowed op a b) ∧
    (∀ r, scalarArith op a b = some r →
      (op = .add → r.isChar = true) ∧
      (op = .sub → a.isChar = true → b.isChar = true → r.isChar = false) ∧
      (op = .sub → a.isChar = false → r.isChar = true)) := by
  cases op <;> cases a <;> cases b <;>
    simp_all [scalarArith, charArithAllowed, UScalar.isChar]

theorem char_arith_affine_witness :
    ((UScalar.char 97).isChar || (UScalar.num 2).isChar = true) ∧
    (scalarArith .mul (.char 97) (.num 2)).isSome = false := by
  refine ⟨by decide, ?_⟩
  have h := (char_arith_affine .mul (.char 97) (.num 2) (by decide)).1
  rw [h]; decide

/-! ## Pervasive broadcasting over arrays (spec sections 4.1, 8) -/

/-- A multidimensional array: a shape and flat row-major data. The validity
invariant (data length = product of shape) is carried as a hypothesis. -/
structure UArray (α : Type) where
  shape : List Nat
  data : List α
deriving DecidableEq

/-- Modelled from the spec: the engine's pervasive dispatch is not under
src. Applying a pervasive binary operation to two arrays requires that the
shape of the smaller-rank array be a prefix of the shape of the larger
(tested in both directions); the result shape is the larger shape, and the
smaller array's elements are cyclically reused across the remaining axes
(flat index i of the result reads flat index i mod size of the smaller
array). A shape mismatch is a TypeError, modelled as none. -/
def binPervade {α : Type} [Inhabited α] (f : α → α → α) (a b : UArray α) :
    Option (UArray α) :=
  if a.shape.isPrefixOf b.shape then
    some ⟨b.shape, (List.range b.data.length).map
      (fun i => f (a.data.getD (i % a.data.length) default) (b.data.getD i default))⟩
  else if b.shape.isPrefixOf a.shape then
    some ⟨a.shape, (List.range a.data.length).map
      (fun i => f (a.data.getD i default) (b.data.getD (i % b.data.length) default))⟩
  else
    none

theorem getD_map_range {α : Type} [Inhabited α] (g : Nat → α) (n i : Nat)
    (hi : i < n) : ((List.range n).map g).getD i default = g i := by
  rw [List.getD_eq_getElem?_getD, List.getElem?_map, List.getElem?_range hi]
  rfl

/-- C1: a pervasive binary operation on two arrays succeeds exactly when the
shape of one is a prefix of the shape of the other; on success the result
has the larger shape (and satisfies the array validity invariant), the
smaller array's elements are cyclically reused, and in particular adding
shape-[2] and shape-[3] arrays (the program `+[1 2] [3 4 5]`) is a
TypeError. -/
theorem pervasive_shape_rule :
    (∀ (f : Int → Int → Int) (a b : UArray Int),
      a.data.length = a.shape.prod → b.data.length = b.shape.prod →
      ((binPervade f a b).isSome =
        (a.shape.isPrefixOf b.shape || b.shape.isPrefixOf a.shape)) ∧
      (∀ r, binPervade f a b = some r →
        ((a.shape.isPrefixOf b.shape = true ∧ r.shape = b.shape) ∨
         (b.shape.isPrefixOf a.shape = true ∧ r.shape = a.shape)) ∧
        r.data.length = r.shape.prod ∧
        (a.shape.isPrefixOf b.shape = true →
          ∀ i, i < r.data.length →
            r.data.getD i default =
              f (a.data.getD (i % a.data.length) default) (b.data.getD i default)))) ∧
    binPervade (fun x y : Int => x + y) ⟨[2], [1, 2]⟩ ⟨[3], [3, 4, 5]⟩ = none := by
  constructor
  · intro f a b ha hb
    by_cases h1 : a.shape.isPrefixOf b.shape
    · refine ⟨by simp [binPervade, h1], ?_⟩
      intro r hr
      rw [binPervade, if_pos h1] at hr
      obtain rfl := (Option.some_inj.mp hr).symm
      refine ⟨Or.inl ⟨h1, rfl⟩, by simp [hb], ?_⟩
      intro _ i hi
      simp only [List.length_map, List.length_range] at hi
      exact getD_map_range _ _ _ hi
    · by_cases h2 : b.shape.isPrefixOf a.shape
      · refine ⟨by simp [binPervade, h1, h2], ?_⟩
        intro r hr
        rw [binPervade, if_neg (by simp [h1]), if_pos h2] at hr
        obtain rfl := (Option.some_inj.mp hr).symm
        exact ⟨Or.inr ⟨h2, rfl⟩, by simp [ha], fun hcontra => absurd hcontra (by simp [h1])⟩
      · refine ⟨by simp [binPervade, h1, h2], ?_⟩
        intro r hr
        rw [binPervade, if_neg (by simp [h1]), if_neg (by simp [h2])] at hr
        cases hr
  · decide

theorem pervasive_shape_rule_witness :
    (binPervade (fun x y : Int => x + y)
      ⟨[2], [1, 2]⟩ ⟨[2, 3], [10, 20, 30, 40, 50, 60]⟩).isSome = true := by
  have h := (pervasive_shape_rule.1 (fun x y : Int => x + y)
    ⟨[2], [1, 2]⟩ ⟨[2, 3], [10, 20, 30, 40, 50, 60]⟩ (by decide) (by decide)).1
  rw [h]; decide

/-! ## Import caching (spec sections 3, 4.5, 8) -/

/-- Modelled from the spec: the interpreter state relevant to imports (the
engine is not under src): the import cache mapping canonical file path to
the recorded stack values, the global value stack, a log of file executions
(a stand-in for execution-time side effects such as printing), and a world
seed that execution consumes (so re-executing a file could observe a
different world, e.g. a random number generator). -/
structure Interp where
  cache : List (String × List Int)
  stack : List Int
  execLog : List String
  seed : Nat
deriving DecidableEq

/-- Modelled from the spec: import of a file path. If the path has not
previously been imported, execute its top-level code once (logging the
execution and advancing the world seed), record the values it pushed, and
mark it imported; otherwise do not re-execute, but re-push the previously
recorded stack values. The abstract `exec` gives the values the file's code
pushes as a function of the path and the current world seed. -/
def importFile (exec : String → Nat → List Int) (path : String) (st : Interp) :
    Interp :=
  match st.cache.lookup path with
  | some vals => { st with stack := vals ++ st.stack }
  | none =>
      let vals := exec path st.seed
      { cache := (path, vals) :: st.cache
        stack := vals ++ st.stack
        execLog := st.execLog ++ [path]
        seed := st.seed + 1 }

/-- Import the same path `n` times in sequence. -/
def importN (exec : String → Nat → List Int) (path : String) :
    Nat → Interp → Interp
  | 0, st => st
  | n + 1, st => importN exec path n (importFile exec path st)

theorem join_replicate_append (v : List Int) (n : Nat) :
    (List.replicate n v).flatten ++ v = v ++ (List.replicate n v).flatten := by
  induction n with
  | zero => simp
  | succ n ih =>
      simp only [List.replicate_succ, List.flatten_cons, List.append_assoc, ih]

theorem importN_cached (exec : String → Nat → List Int) (path : String)
    (vals : List Int) :
    ∀ (n : Nat) (st : Interp), st.cache.lookup path = some vals →
      importN exec path n st = { st with stack := (List.replicate n vals).flatten ++ st.stack } := by
  intro n
  induction n with
  | zero => intro st _; simp [importN]
  | succ n ih =>
      intro st h
      have hstep : importFile exec path st = { st with stack := vals ++ st.stack } := by
        rw [importFile, h]
      rw [importN, hstep, ih _ (by simpa using h)]
      simp [List.replicate_succ, List.flatten_cons, List.append_assoc]
      rw [← List.append_assoc, ← List.append_assoc, join_replicate_append]

/-- C2: importing a path `n + 1` times when it has never been imported
executes the file's top-level code (and its side effects) exactly once, on
the first import, and every import pushes the identical recorded sequence of
stack values. -/
theorem import_once_replay (exec : String → Nat → List Int) (path : String)
    (st : Interp) (n : Nat) (h : st.cache.lookup path = none) :
    (importN exec path (n + 1) st).execLog = st.execLog ++ [path] ∧
    (importN exec path (n + 1) st).stack =
      (List.replicate (n + 1) (exec path st.seed)).flatten ++ st.stack ∧
    (importN exec path (n + 1) st).cache.lookup path = some (exec path st.seed) := by
  have hstep : importFile exec path st =
      { cache := (path, exec path st.seed) :: st.cache
        stack := exec path st.seed ++ st.stack
        execLog := st.execLog ++ [path]
        seed := st.seed + 1 } := by
    rw [importFile, h]
  have hlook : ((path, exec path st.seed) :: st.cache).lookup path
      = some (exec path st.seed) := by simp [List.lookup]
  rw [importN, hstep, importN_cached exec path (exec path st.seed) n _ (by simp [hlook])]
  refine ⟨rfl, ?_, by exact hlook⟩
  simp [List.replicate_succ, List.flatten_cons, List.append_assoc]
  rw [← List.append_assoc, ← List.append_assoc, join_replicate_append]

theorem import_once_replay_witness :
    (importN (fun _ seed => [Int.ofNat seed, 7]) "example.ua" 3
        ⟨[], [], [], 5⟩).execLog = [] ++ ["example.ua"] ∧
    (importN (fun _ seed => [Int.ofNat seed, 7]) "example.ua" 3
        ⟨[], [], [], 5⟩).stack = [5, 7, 5, 7, 5, 7] := by
  have h := import_once_replay (fun _ seed => [Int.ofNat seed, 7]) "example.ua"
    ⟨[], [], [], 5⟩ 2 (by simp [List.lookup])
  exact ⟨h.1, by rw [h.2.1]; decide⟩

/-! ## Formatter idempotence (spec sections 4.2, 6, 8) -/

/-- A token of source text: an already-canonical glyph, an alphabetic name
(builtin or user binding), or any other lexeme (numbers, strings,
whitespace). -/
inductive Tok
  | glyph (g : Char)
  | name (s : String)
  | other (s : String)
deriving DecidableEq

/-- A formatting error: the typed name is an ambiguous prefix of several
built-in names. -/
inductive FmtErr
  | ambiguous (s : String)
deriving DecidableEq

/-- Modelled from the spec: a representative fragment of the built-in name
table mapping primitive names to their canonical glyphs. -/
def builtins : List (String × Char) :=
  [("add", '+'), ("subtract", '-'), ("multiply", '×'), ("divide", '÷'),
   ("maximum", '↥'), ("modulus", '◿'), ("power", 'ⁿ'), ("sqrt", '√'),
   ("ceiling", '⌈'), ("floor", '⌊'), ("couple", '⊟'), ("join", '⊂')]

/-- The built-in entries a typed name is a prefix of (candidate matches for
prefix-based disambiguation). -/
def matchesOf (s : String) : List (String × Char) :=
  builtins.filter (fun e => s.data.isPrefixOf e.1.data)

/-- Modelled from the spec: the formatter is not under src. Format one
token: glyphs and non-name lexemes are already canonical; a name that is an
unambiguous prefix of exactly one built-in is replaced by that builtin's
canonical glyph; a name matching no built-in is left unchanged (it may be a
user binding); a name matching several built-ins is a formatting error. -/
def fmtTok : Tok → Except FmtErr Tok
  | .glyph g => .ok (.glyph g)
  | .other s => .ok (.other s)
  | .name s =>
      match matchesOf s with
      | [] => .ok (.name s)
      | [e] => .ok (.glyph e.2)
      | _ :: _ :: _ => .error (.ambiguous s)

/-- Modelled from the spec: format source text token by token; the first
ambiguous name aborts with a FormatError. -/
def format (toks : List Tok) : Except FmtErr (List Tok) :=
  toks.mapM fmtTok

theorem fmtTok_idem (t t' : Tok) (h : fmtTok t = .ok t') : fmtTok t' = .ok t' := by
  cases t with
  | glyph g => cases h; rfl
  | other s => cases h; rfl
  | name s =>
      rw [fmtTok] at h
      rcases hm : matchesOf s with _ | ⟨e, _ | ⟨e2, rest⟩⟩ <;> rw [hm] at h
      · cases h; rw [fmtTok, hm]
      · cases h; rfl
      · cases h

/-- C3: the format operation is idempotent: whenever formatting source text
x succeeds with output y, formatting y succeeds and returns y unchanged, so
format (format x) = format x on every valid source. -/
theorem format_idempotent (x y : List Tok) (h : format x = .ok y) :
    format y = .ok y := by
  induction x generalizing y with
  | nil => cases h; rfl
  | cons t rest ih =>
      rw [format, List.mapM_cons] at h
      cases ht : fmtTok t with
      | error e => rw [ht] at h; cases h
      | ok t' =>
          rw [ht] at h
          cases hr : rest.mapM fmtTok with
          | error e => rw [hr] at h; cases h
          | ok rest' =>
              rw [hr] at h
              cases h
              have h1 := fmtTok_idem t t' ht
              have h2 : List.mapM fmtTok rest' = Except.ok rest' := ih rest' hr
              rw [format, List.mapM_cons, h1, h2]
              rfl

theorem format_idempotent_witness :
    format [Tok.glyph '+', Tok.name "sq", Tok.name "foo"] =
      .ok [Tok.glyph '+', Tok.glyph '√', Tok.name "foo"] ∧
    format [Tok.glyph '+', Tok.glyph '√', Tok.name "foo"] =
      .ok [Tok.glyph '+', Tok.glyph '√', Tok.name "foo"] := by
  have h1 : format [Tok.glyph '+', Tok.name "sq", Tok.name "foo"] =
      .ok [Tok.glyph '+', Tok.glyph '√', Tok.name "foo"] := by rfl
  exact ⟨h1, format_idempotent _ _ h1⟩

/-! ## The CLI watch loop's format retry policy (src/main.rs lines 200-251) -/

/-- Outcome of one format_file call as the watch loop distinguishes them:
success (carrying whether the formatted text is empty), a Format error
(UiuaError::Format), or any other error. -/
inductive FmtOutcome
  | ok (isEmpty : Bool)
  | formatErr
  | otherErr
deriving DecidableEq

/-- How one invocation of the watch run closure ends. -/
inductive WatchResult
  | returnedEmpty
  | spawned
  | displayedError
  | reportedFailure
deriving DecidableEq

/-- The observable trace of one invocation of the watch run closure: how
many format_file attempts were made, the sleep durations (in milliseconds,
in order) between them, and how it ended. -/
structure WatchTrace where
  attempts : Nat
  sleeps : List Nat
  result : WatchResult
deriving DecidableEq

/-- Translated from src/main.rs line 205: `const TRIES: u8 = 10`. -/
def TRIES : Nat := 10

/-- Translated from src/main.rs lines 206-248: the body of `for i in
0..TRIES`, with `i` the current attempt index and the second argument the
remaining iterations. A success with empty formatted text just redraws the
watch line; a success spawns the child; a Format error sleeps
(i + 1) * 10 milliseconds and retries; any other error is displayed
immediately and ends the closure. Exhausting the loop reports failure
(line 249). -/
def watchRunAux (oc : Nat → FmtOutcome) : Nat → Nat → WatchTrace
  | _, 0 => ⟨0, [], .reportedFailure⟩
  | i, fuel + 1 =>
      match oc i with
      | .ok true => ⟨1, [], .returnedEmpty⟩
      | .ok false => ⟨1, [], .spawned⟩
      | .otherErr => ⟨1, [], .displayedError⟩
      | .formatErr =>
          let t := watchRunAux oc (i + 1) fuel
          ⟨t.attempts + 1, (i + 1) * 10 :: t.sleeps, t.result⟩

/-- The watch run closure: attempts start at index 0 with TRIES iterations
available. `oc` gives the outcome format_file would produce on each
attempt. -/
def watchRun (oc : Nat → FmtOutcome) : WatchTrace :=
  watchRunAux oc 0 TRIES

/-- How the Run command's single format step ends. -/
inductive CmdFmtResult
  | proceeded
  | propagated
deriving DecidableEq

/-- Translated from src/main.rs lines 90-93: the Run command (like Test at
line 116 and Fmt at lines 72-79) calls format_file at most once — not at
all under --no-format — and propagates any error to the caller with `?`;
it never retries. The first component counts format_file calls. -/
def runCmdFormatStep (noFormat : Bool) (oc : Nat → FmtOutcome) :
    Nat × CmdFmtResult :=
  if noFormat then (0, .proceeded)
  else
    match oc 0 with
    | .ok _ => (1, .proceeded)
    | _ => (1, .propagated)

theorem watchRunAux_ok (oc : Nat → FmtOutcome) (i fuel : Nat) (e : Bool)
    (h : oc i = .ok e) :
    watchRunAux oc i (fuel + 1) =
      ⟨1, [], if e then .returnedEmpty else .spawned⟩ := by
  rw [watchRunAux, h]; cases e <;> rfl

theorem watchRunAux_other (oc : Nat → FmtOutcome) (i fuel : Nat)
    (h : oc i = .otherErr) :
    watchRunAux oc i (fuel + 1) = ⟨1, [], .displayedError⟩ := by
  rw [watchRunAux, h]

theorem watchRunAux_fe (oc : Nat → FmtOutcome) (i fuel : Nat)
    (h : oc i = .formatErr) :
    watchRunAux oc i (fuel + 1) =
      ⟨(watchRunAux oc (i + 1) fuel).attempts + 1,
       (i + 1) * 10 :: (watchRunAux oc (i + 1) fuel).sleeps,
       (watchRunAux oc (i + 1) fuel).result⟩ := by
  rw [watchRunAux, h]

theorem range_succ_map_mul10 (i k : Nat) :
    (List.range (k + 1)).map (fun j => (i + j + 1) * 10)
      = (i + 1) * 10 :: (List.range k).map (fun j => (i + 1 + j + 1) * 10) := by
  rw [List.range_succ_eq_map, List.map_cons, List.map_map]
  refine congrArg₂ List.cons (by simp) (List.map_congr_left ?_)
  intro j _
  show (i + (j + 1) + 1) * 10 = (i + 1 + j + 1) * 10
  omega

theorem watchRunAux_attempts_le (oc : Nat → FmtOutcome) :
    ∀ fuel i, (watchRunAux oc i fuel).attempts ≤ fuel := by
  intro fuel
  induction fuel with
  | zero => intro i; exact Nat.le_refl 0
  | succ fuel ih =>
      intro i
      cases hoc : oc i with
      | ok e => rw [watchRunAux_ok oc i fuel e hoc]; exact Nat.le_add_left 1 fuel
      | otherErr => rw [watchRunAux_other oc i fuel hoc]; exact Nat.le_add_left 1 fuel
      | formatErr =>
          rw [watchRunAux_fe oc i fuel hoc]
          exact Nat.succ_le_succ (ih (i + 1))

theorem watchRunAux_retry_only_format (oc : Nat → FmtOutcome) :
    ∀ fuel i j, j + 1 < (watchRunAux oc i fuel).attempts → oc (i + j) = .formatErr := by
  intro fuel
  induction fuel with
  | zero => intro i j h; exact absurd h (by simp [watchRunAux])
  | succ fuel ih =>
      intro i j h
      cases hoc : oc i with
      | ok e =>
          rw [watchRunAux_ok oc i fuel e hoc] at h
          exact absurd (show j + 1 < 1 from h) (by omega)
      | otherErr =>
          rw [watchRunAux_other oc i fuel hoc] at h
          exact absurd (show j + 1 < 1 from h) (by omega)
      | formatErr =>
          cases j with
          | zero => simpa using hoc
          | succ j =>
              rw [watchRunAux_fe oc i fuel hoc] at h
              have h2 := ih (i + 1) j (Nat.lt_of_succ_lt_succ h)
              have e : i + (j + 1) = i + 1 + j := by omega
              rw [e]
              exact h2

theorem watchRunAux_stops_other (oc : Nat → FmtOutcome) :
    ∀ k i fuel, k < fuel → (∀ j, j < k → oc (i + j) = .formatErr) →
      oc (i + k) = .otherErr →
      watchRunAux oc i fuel =
        ⟨k + 1, (List.range k).map (fun j => (i + j + 1) * 10), .displayedError⟩ := by
  intro k
  induction k with
  | zero =>
      intro i fuel hk _ hstop
      obtain ⟨fuel, rfl⟩ : ∃ f, fuel = f + 1 := ⟨fuel - 1, by omega⟩
      have h0 : oc i = .otherErr := by simpa using hstop
      rw [watchRunAux_other oc i fuel h0]
      rfl
  | succ k ih =>
      intro i fuel hk hfe hstop
      obtain ⟨fuel, rfl⟩ : ∃ f, fuel = f + 1 := ⟨fuel - 1, by omega⟩
      have h0 : oc i = .formatErr := by simpa using hfe 0 (Nat.succ_pos k)
      have hfe2 : ∀ j, j < k → oc (i + 1 + j) = .formatErr := by
        intro j hj
        have h2 := hfe (j + 1) (by omega)
        have e : i + 1 + j = i + (j + 1) := by omega
        rw [e]
        exact h2
      have hstop2 : oc (i + 1 + k) = .otherErr := by
        have e : i + 1 + k = i + (k + 1) := by omega
        rw [e]
        exact hstop
      have hlt : k < fuel := by omega
      rw [watchRunAux_fe oc i fuel h0, ih (i + 1) fuel hlt hfe2 hstop2,
        range_succ_map_mul10 i k]

theorem watchRunAux_exhausts (oc : Nat → FmtOutcome) :
    ∀ fuel i, (∀ j, j < fuel → oc (i + j) = .formatErr) →
      watchRunAux oc i fuel =
        ⟨fuel, (List.range fuel).map (fun j => (i + j + 1) * 10), .reportedFailure⟩ := by
  intro fuel
  induction fuel with
  | zero => intro i _; rfl
  | succ fuel ih =>
      intro i hfe
      have h0 : oc i = .formatErr := by simpa using hfe 0 (Nat.succ_pos fuel)
      have hfe2 : ∀ j, j < fuel → oc (i + 1 + j) = .formatErr := by
        intro j hj
        have h2 := hfe (j + 1) (by omega)
        have e : i + 1 + j = i + (j + 1) := by omega
        rw [e]
        exact h2
      rw [watchRunAux_fe oc i fuel h0, ih (i + 1) hfe2, range_succ_map_mul10 i fuel]

theorem range_map_mul10_zero (k : Nat) :
    (List.range k).map (fun j => (0 + j + 1) * 10)
      = (List.range k).map (fun j => (j + 1) * 10) :=
  List.map_congr_left (fun j _ => by omega)

/-- C7: only the watch layer retries formatting, and only on a Format
error: the watch run closure makes at most 10 format_file attempts, every
attempt that is followed by another one failed with a Format error, a
non-Format error at attempt k (after k Format errors) is displayed
immediately with exactly the k sleeps (j + 1) * 10 ms between attempts and
no further retry, exhausting all 10 attempts on Format errors reports
failure, and the Run command path makes at most one format_file call and
propagates non-Format errors without retrying. -/
theorem watch_retry_policy (oc : Nat → FmtOutcome) (k : Nat) (hk : k < TRIES)
    (hfe : ∀ j, j < k → oc j = .formatErr) :
    (watchRun oc).attempts ≤ TRIES ∧
    (∀ j, j + 1 < (watchRun oc).attempts → oc j = .formatErr) ∧
    (oc k = .otherErr →
      watchRun oc =
        ⟨k + 1, (List.range k).map (fun j => (j + 1) * 10), .displayedError⟩) ∧
    ((∀ j, j < TRIES → oc j = .formatErr) →
      watchRun oc =
        ⟨TRIES, (List.range TRIES).map (fun j => (j + 1) * 10), .reportedFailure⟩) ∧
    (∀ noFormat, (runCmdFormatStep noFormat oc).1 ≤ 1) ∧
    (oc 0 = .otherErr → runCmdFormatStep false oc = (1, .propagated)) := by
  refine ⟨watchRunAux_attempts_le oc TRIES 0,
    fun j h => by simpa using watchRunAux_retry_only_format oc TRIES 0 j h,
    fun hstop => ?_, fun hall => ?_, fun noFormat => ?_, fun h0 => ?_⟩
  · have h := watchRunAux_stops_other oc k 0 TRIES hk
      (fun j hj => by simpa using hfe j hj) (by simpa using hstop)
    rw [watchRun, h, range_map_mul10_zero k]
  · have h := watchRunAux_exhausts oc TRIES 0 (fun j hj => by simpa using hall j hj)
    rw [watchRun, h, range_map_mul10_zero TRIES]
  · cases noFormat
    · cases hoc : oc 0 <;> simp [runCmdFormatStep, hoc]
    · simp [runCmdFormatStep]
  · simp [runCmdFormatStep, h0]

theorem watch_retry_policy_witness :
    (2 : Nat) < TRIES ∧
    watchRun (fun j => if j < 2 then .formatErr else .otherErr) =
      ⟨3, [10, 20], .displayedError⟩ := by
  refine ⟨by decide, ?_⟩
  have h := (watch_retry_policy (fun j => if j < 2 then .formatErr else .otherErr)
    2 (by decide) (fun j hj => by simp [hj])).2.2.1 (by simp)
  rw [h]
  decide

/-! ## Run modes and their CLI selection (src/main.rs lines 90-125, 220-237) -/

/-- Modelled from the spec: RunMode of the uiua crate (not under src); the
run interface supports at least normal execution, test-assertion execution,
and the "all" execution used by live-reload. -/
inductive RunMode
  | Normal
  | Test
  | All
deriving DecidableEq

/-- Modelled from the spec: clap parses the --mode value into a RunMode (the
value enum of the uiua crate, not under src); the lowercase mode names map
to the corresponding modes. -/
def runModeOfString : String → Option RunMode
  | "normal" => some .Normal
  | "test" => some .Test
  | "all" => some .All
  | _ => none

/-- Translated from src/main.rs line 94: `mode.unwrap_or(RunMode::Normal)` —
the Run command uses the explicitly passed mode, defaulting to normal
execution. -/
def runCmdMode (mode : Option RunMode) : RunMode :=
  mode.getD .Normal

/-- Translated from src/main.rs lines 117-118: the Test subcommand always
runs `with_mode(RunMode::Test)`. -/
def testCmdMode : RunMode :=
  RunMode.Test

/-- Translated from src/main.rs lines 221-234: the argument list of the
child process spawned by the watcher (audio feature disabled): `run <path>
--no-format --mode all --audio-time <t>`. -/
def watchChildArgs (path audioTime : String) : List String :=
  ["run", path, "--no-format", "--mode", "all", "--audio-time", audioTime]

/-- C8: the run interface supports at least three distinct modes and the
CLI selects them as specified: a run invocation without an explicit mode
uses normal execution, the test subcommand runs in test-assertion mode, and
the live-reload watcher spawns its child with the --mode flag set to "all",
which parses to the all mode. -/
theorem run_modes_selected :
    (RunMode.Normal ≠ RunMode.Test ∧ RunMode.Test ≠ RunMode.All ∧
      RunMode.Normal ≠ RunMode.All) ∧
    runCmdMode none = RunMode.Normal ∧
    (∀ m, runCmdMode (some m) = m) ∧
    testCmdMode = RunMode.Test ∧
    (∀ path audioTime, (watchChildArgs path audioTime)[3]? = some "--mode" ∧
      (watchChildArgs path audioTime)[4]? = some "all") ∧
    runModeOfString "all" = some RunMode.All := by
  exact ⟨⟨by decide, by decide, by decide⟩, rfl, fun m => rfl, rfl,
    fun path audioTime => ⟨rfl, rfl⟩, rfl⟩

theorem run_modes_selected_witness :
    runCmdMode (some RunMode.All) = RunMode.All ∧
    (watchChildArgs "main.ua" "0")[4]? = some "all" :=
  ⟨run_modes_selected.2.2.1 RunMode.All,
   (run_modes_selected.2.2.2.2.1 "main.ua" "0").2⟩

/-! ## Working file resolution (src/main.rs lines 156-179) -/

/-- The file-system view the CLI queries: whether a path exists, and the
entries of a directory in iteration order (a failed read_dir contributes no
entries, matching the flatten of the iterator chain). -/
structure FileEnv where
  pathExists : String → Bool
  dirEntries : String → List String

/-- Whether a path has extension "ua", following Rust Path::extension: the
portion after the last dot, provided a nonempty stem precedes that dot. -/
def hasUaExt (s : String) : Bool :=
  let rev := s.data.reverse
  match rev.dropWhile (fun c => c ≠ '.') with
  | '.' :: stem => !stem.isEmpty && (rev.takeWhile (fun c => c ≠ '.')) == ['a', 'u']
  | _ => false

/-- Translated from src/main.rs lines 159-179 (working_file_path): check the
single literal file name "src.main.ua" (note: a dotted file name, not the
path src/main.ua); if it exists it is the candidate, otherwise "main.ua";
if the candidate exists return it, otherwise return the first entry with
extension "ua" among the current directory's entries followed by those of
"src"; otherwise none. -/
def workingFilePath (env : FileEnv) : Option String :=
  let inSrc := "src.main.ua"
  let main := if env.pathExists inSrc then inSrc else "main.ua"
  if env.pathExists main then some main
  else (env.dirEntries "" ++ env.dirEntries "src").find? hasUaExt

/-- Translated from src/main.rs lines 156-157. -/
def NO_UA_FILE : String :=
  "No .ua file found nearby. Initialize one in the current directory with `uiua init`"

/-- What the Run command does before executing anything, when invoked with
no path argument. -/
inductive RunCmdStep
  | runsFile (p : String)
  | printsNoUaFile (msg : String)
deriving DecidableEq

/-- Translated from src/main.rs lines 90-112: with no path argument the Run
command resolves the working file; if none resolves it prints NO_UA_FILE to
stderr instead of running anything. -/
def runCmdNoPath (env : FileEnv) : RunCmdStep :=
  match workingFilePath env with
  | some p => .runsFile p
  | none => .printsNoUaFile NO_UA_FILE

/-- Translated from src/main.rs lines 110-112 and 152-153: the no-file
branch of the Run command falls through and run() returns Ok(()). -/
def runResultNoFile : Except String Unit :=
  .ok ()

/-- Translated from src/main.rs lines 47-50: main exits with code 1 exactly
when run() returns an error, and normally (code 0) otherwise. -/
def mainExitCode : Except String Unit → Nat
  | .ok _ => 0
  | .error _ => 1

/-- C9: with no path argument the CLI resolves the working file in a fixed
order — the literal dotted file name "src.main.ua" in the current directory
first (not the path src/main.ua), then "main.ua", then the first entry with
extension "ua" in the current directory's listing followed by the "src"
directory's listing — and when none exists the Run command prints the
"No .ua file found nearby" message instead of running and the process still
exits successfully. -/
theorem working_file_resolution (env : FileEnv) :
    ("src.main.ua" : String) ≠ "src/main.ua" ∧
    ('/' ∈ "src.main.ua".data) = False ∧
    (env.pathExists "src.main.ua" = true →
      workingFilePath env = some "src.main.ua") ∧
    (env.pathExists "src.main.ua" = false → env.pathExists "main.ua" = true →
      workingFilePath env = some "main.ua") ∧
    (env.pathExists "src.main.ua" = false → env.pathExists "main.ua" = false →
      workingFilePath env =
        (env.dirEntries "" ++ env.dirEntries "src").find? hasUaExt) ∧
    (workingFilePath env = none →
      runCmdNoPath env = .printsNoUaFile NO_UA_FILE ∧
      mainExitCode runResultNoFile = 0) := by
  refine ⟨by decide, by decide, ?_, ?_, ?_, ?_⟩
  · intro h1
    rw [workingFilePath]
    simp only [h1, if_true]
  · intro h1 h2
    rw [workingFilePath]
    simp only [h1, h2, Bool.false_eq_true, if_false, if_true]
  · intro h1 h2
    rw [workingFilePath]
    simp only [h1, h2, Bool.false_eq_true, if_false]
  · intro h
    exact ⟨by rw [runCmdNoPath, h], rfl⟩

theorem working_file_resolution_witness :
    workingFilePath ⟨fun _ => false, fun d => if d = "" then ["notes.txt"] else ["src/main.ua"]⟩
      = some "src/main.ua" ∧
    runCmdNoPath ⟨fun _ => false, fun _ => []⟩ = .printsNoUaFile NO_UA_FILE := by
  constructor
  · have h := (working_file_resolution
      ⟨fun _ => false, fun d => if d = "" then ["notes.txt"] else ["src/main.ua"]⟩
      ).2.2.2.2.1 rfl rfl
    rw [h]
    rfl
  · have h := (working_file_resolution ⟨fun _ => false, fun _ => []⟩).2.2.2.2.2
    exact (h rfl).1

/-! ## The Ctrl+C handler (src/main.rs lines 32-45, 53) -/

/-- The externally visible effect of one delivery of Ctrl+C. -/
inductive InterruptEffect
  | killedChild (pid : Nat)
  | exitedProcess (code : Nat)
deriving DecidableEq

/-- Translated from src/main.rs lines 32-45: the Ctrl+C handler as a
function of the WATCH_CHILD state it locks: when a child run is recorded it
kills that child, clears the slot, prints "# Program interrupted" and the
watching banner, and returns (the watcher loop keeps running); only when no
child is recorded does it exit the process with code 0. -/
def ctrlcHandler : Option Nat → Option Nat × InterruptEffect
  | some pid => (none, .killedChild pid)
  | none => (none, .exitedProcess 0)

/-- C10: an interrupt received while a watch-spawned child run is recorded
kills only that child (clearing the slot) and never exits the watcher
process; the handler exits the process only when no child run is
recorded. -/
theorem interrupt_kills_child_only :
    (∀ pid, ctrlcHandler (some pid) = (none, .killedChild pid)) ∧
    (∀ pid code, (ctrlcHandler (some pid)).2 ≠ .exitedProcess code) ∧
    ctrlcHandler none = (none, .exitedProcess 0) := by
  exact ⟨fun pid => rfl, fun pid code => by simp [ctrlcHandler], rfl⟩

theorem interrupt_kills_child_only_witness :
    ctrlcHandler (some 7) = (none, .killedChild 7) ∧
    (ctrlcHandler (some 7)).2 ≠ .exitedProcess 0 :=
  ⟨interrupt_kills_child_only.1 7, interrupt_kills_child_only.2.1 7 0⟩

end Uiua
